import Mathlib

set_option maxHeartbeats 1000000
set_option linter.unusedSectionVars false

namespace MiniTorch

/-- Modelled from the spec: the external tensor core's `Tensor` entity (spec section 6),
a strided N-dimensional array with a shape and row-major flat storage.  The storage is a
total function from flat indices to scalars; indices past the end are irrelevant.  The
scalar type is an abstract linearly ordered field standing for the floats of the code. -/
structure Tensor (α : Type) where
  shape : List ℕ
  data : ℕ → α

variable {α : Type} [LinearOrderedField α]

/-- Row-major flat index of a multi-index in a shape. -/
def encode : List ℕ → List ℕ → ℕ
  | _ :: ss, i :: is => i * ss.prod + encode ss is
  | _, _ => 0

/-- Multi-index of a row-major flat index in a shape. -/
def decode : List ℕ → ℕ → List ℕ
  | [], _ => []
  | _ :: ss, n => n / ss.prod :: decode ss (n % ss.prod)

/-- Whether a multi-index is in range for a shape, componentwise. -/
def validIdx : List ℕ → List ℕ → Bool
  | [], [] => true
  | i :: is, s :: ss => decide (i < s) && validIdx is ss
  | _, _ => false

/-- Element of a tensor at a multi-index. -/
def Tensor.get (t : Tensor α) (idx : List ℕ) : α := t.data (encode t.shape idx)

/-- Modelled from the spec: `contiguous` materializes a tensor in row-major order; in this
model data is always held row-major, so it is the identity. -/
def Tensor.contiguous (t : Tensor α) : Tensor α := t

/-- Modelled from the spec: `view` reinterprets the row-major data of a contiguous tensor
under a new shape. -/
def Tensor.view (t : Tensor α) (ns : List ℕ) : Tensor α := ⟨ns, t.data⟩

/-- Apply an axis permutation, given as the list of source axes, to a list. -/
def applyPerm (perm l : List ℕ) : List ℕ := perm.map (fun i => l.getD i 0)

/-- Inverse of an axis permutation. -/
def invPerm (perm : List ℕ) : List ℕ := (List.range perm.length).map (fun k => perm.indexOf k)

/-- Modelled from the spec: `permute` reorders the axes of a tensor; entry at multi-index
`idx` of the result is the entry of `t` at the multi-index sending axis `perm j` to `idx j`. -/
def Tensor.permute (t : Tensor α) (perm : List ℕ) : Tensor α :=
  ⟨applyPerm perm t.shape,
   fun n => t.data (encode t.shape (applyPerm (invPerm perm) (decode (applyPerm perm t.shape) n)))⟩

/-- Modelled from the spec: elementwise map over a tensor. -/
def Tensor.map (t : Tensor α) (f : α → α) : Tensor α := ⟨t.shape, fun n => f (t.data n)⟩

/-- Componentwise remainder, implementing broadcasting of size-1 axes. -/
def broadcastIdx (idx s : List ℕ) : List ℕ := List.zipWith (fun i d => i % d) idx s

/-- Modelled from the spec: elementwise binary operation with numpy-style broadcasting of
size-1 axes (the output shape is the componentwise maximum, and a size-1 axis of an input
is read at position 0). -/
def Tensor.zipWith (f : α → α → α) (a b : Tensor α) : Tensor α :=
  ⟨List.zipWith Nat.max a.shape b.shape,
   fun n =>
     let idx := decode (List.zipWith Nat.max a.shape b.shape) n
     f (a.get (broadcastIdx idx a.shape)) (b.get (broadcastIdx idx b.shape))⟩

/-- Modelled from the spec: elementwise tensor addition. -/
def Tensor.add (a b : Tensor α) : Tensor α := Tensor.zipWith (fun x y => x + y) a b

/-- Modelled from the spec: elementwise tensor subtraction. -/
def Tensor.sub (a b : Tensor α) : Tensor α := Tensor.zipWith (fun x y => x - y) a b

/-- Modelled from the spec: elementwise tensor multiplication. -/
def Tensor.mul (a b : Tensor α) : Tensor α := Tensor.zipWith (fun x y => x * y) a b

/-- Modelled from the spec: elementwise tensor division. -/
def Tensor.div (a b : Tensor α) : Tensor α := Tensor.zipWith (fun x y => x / y) a b

/-- Modelled from the spec: elementwise equality comparison producing a 0/1 mask. -/
def Tensor.eq (a b : Tensor α) : Tensor α :=
  Tensor.zipWith (fun x y => if x = y then 1 else 0) a b

/-- Modelled from the spec: the backend reduce factory (`FastOps.reduce`); given a binary
operator and a start value it folds the operator over the chosen axis, keeping that axis
with size 1. -/
def Tensor.reduce (t : Tensor α) (f : α → α → α) (init : α) (dim : ℕ) : Tensor α :=
  ⟨t.shape.set dim 1,
   fun n =>
     (List.range (t.shape.getD dim 0)).foldl
       (fun acc j => f acc (t.get ((decode (t.shape.set dim 1) n).set dim j))) init⟩

/-- Modelled from the spec: sum-reduction over one axis, keeping the axis with size 1. -/
def Tensor.sum (t : Tensor α) (dim : ℕ) : Tensor α := t.reduce (fun x y => x + y) 0 dim

/-- Modelled from the spec: mean over one axis, the sum divided by the axis length. -/
def Tensor.mean (t : Tensor α) (dim : ℕ) : Tensor α :=
  (t.sum dim).map (fun v => v / (t.shape.getD dim 0 : α))

/-- Modelled from the spec: population variance over one axis, the mean of the squared
deviation from the mean. -/
def Tensor.var (t : Tensor α) (dim : ℕ) : Tensor α :=
  ((t.sub (t.mean dim)).map (fun v => v * v)).mean dim

/-- Binary maximum from `operators.py`: `x if x > y else y`. -/
def operators.max (x y : α) : α := if x > y then x else y

/-- From `nn.py`: `max_reduce = FastOps.reduce(operators.max, -1e9)`. -/
def max_reduce (t : Tensor α) (dim : ℕ) : Tensor α := t.reduce operators.max (-(10 ^ 9)) dim

/-- From `nn.py` `tile`: reshape a `batch x channel x height x width` tensor for 2D pooling.
The two `assert`s on divisibility are modelled by returning `none` when they fail. -/
def tile (input : Tensor α) (kernel : ℕ × ℕ) : Option (Tensor α × ℕ × ℕ) :=
  match input.shape with
  | [batch, channel, height, width] =>
    let kh := kernel.1
    let kw := kernel.2
    if height % kh = 0 ∧ width % kw = 0 then
      let new_width := width / kw
      let new_height := height / kh
      let x1 := input.contiguous.view [batch, channel, new_height, kh, new_width, kw]
      let x2 := (x1.permute [0, 1, 2, 4, 3, 5]).contiguous
      let x3 := x2.view [batch, channel, new_height, new_width, kh * kw]
      some (x3, new_height, new_width)
    else none
  | _ => none

/-- The tensor produced by a successful `tile`, written out as the same composition of
`contiguous`, `view` and `permute` as in the body of `tile`. -/
def tileT (d : ℕ → α) (b c h w kh kw : ℕ) : Tensor α :=
  (((Tensor.mk [b, c, h, w] d).contiguous.view
      [b, c, h / kh, kh, w / kw, kw]).permute [0, 1, 2, 4, 3, 5]).contiguous.view
    [b, c, h / kh, w / kw, kh * kw]

/-- From `nn.py` `avgpool2d`: tile, mean over the tiled axis, view back to 4 dimensions. -/
def avgpool2d (input : Tensor α) (kernel : ℕ × ℕ) : Option (Tensor α) :=
  match input.shape with
  | [batch, channel, _, _] =>
    Option.map (fun x => ((x.1.mean 4).view [batch, channel, x.2.1, x.2.2])) (tile input kernel)
  | _ => none

/-- From `nn.py` `argmax`: `out = max_reduce(input, dim); return out == input`. -/
def argmax (input : Tensor α) (dim : ℕ) : Tensor α := (max_reduce input dim).eq input

/-- From `nn.py` `Max.forward`: max reduction over the given axis. -/
def Max.forward (input : Tensor α) (dim : ℕ) : Tensor α := max_reduce input dim

/-- From `nn.py` `Max.backward`: `return (out == input) * grad_output, 0.0`, where
`input` and `out` are the tensors saved by the forward pass. -/
def Max.backward (input out grad_output : Tensor α) : Tensor α × α :=
  ((out.eq input).mul grad_output, 0)

/-- From `nn.py` `max`: apply the `Max` function. -/
def max (input : Tensor α) (dim : ℕ) : Tensor α := Max.forward input dim

/-- From `nn.py` `maxpool2d`: tile, max over the tiled axis, view back to 4 dimensions. -/
def maxpool2d (input : Tensor α) (kernel : ℕ × ℕ) : Option (Tensor α) :=
  match input.shape with
  | [batch, channel, _, _] =>
    Option.map (fun x => ((max x.1 4).view [batch, channel, x.2.1, x.2.2])) (tile input kernel)
  | _ => none

/-- From `nn.py` `dropout`: multiply by the 0/1 mask `rate < r` over a noise tensor `r`
drawn by `rand(input.shape)`; the draw is passed explicitly as `noise`.  `ignore = true`
bypasses everything. -/
def dropout (input : Tensor α) (rate : α) (ignore : Bool) (noise : Tensor α) : Tensor α :=
  if ignore then input
  else input.mul (noise.map (fun v => if rate < v then 1 else 0))

/-- From `nn.py` `softmax`: subtract the max, exponentiate, divide by the partition. -/
noncomputable def softmax (input : Tensor ℝ) (dim : ℕ) : Tensor ℝ :=
  let e := (input.sub (Max.forward input dim)).map Real.exp
  let partition := e.sum dim
  e.div partition

/-- From `nn.py` `logsoftmax`: the log-sum-exp identity,
`lse = (e - mx).exp().sum(dim).log() + mx; return e - lse`. -/
noncomputable def logsoftmax (input : Tensor ℝ) (dim : ℕ) : Tensor ℝ :=
  let mx := Max.forward input dim
  let lse := ((((input.sub mx).map Real.exp).sum dim).map Real.log).add mx
  input.sub lse

/-- From `nn.py` `layer_norm`: mean and variance are taken along `dim = 4` of a tensor
that was just unpacked as 4-dimensional, then `(input - mean) / (variance + eps)`.
The 4-way unpacking of the shape is modelled by returning `none` on other ranks. -/
def layer_norm (input : Tensor α) (eps : α) : Option (Tensor α) :=
  match input.shape with
  | [batch, channel, height, width] =>
    some ((input.sub ((input.mean 4).view [batch, channel, height, width])).div
      (((input.var 4).view [batch, channel, height, width]).map (fun v => v + eps)))
  | _ => none

/-- From `nn.py` `logsumexp`: the body is `raise NotImplementedError`, unconditionally;
modelled as `none` on every input. -/
def logsumexp (_input : Tensor α) (_dim : ℕ) : Option (Tensor α) := none

/-- From `nn.py` `softmax_loss`: the body is `raise NotImplementedError`, unconditionally;
modelled as `none` on every input. -/
def softmax_loss (_logits _target : Tensor α) : Option (Tensor α) := none

/-- Modelled from the spec: the per-slice maximum along axis `dim`, through the slice of
`idx`, as the plain maximum of the slice's values (the spec's "maximum of that slice"). -/
def sliceMax (x : Tensor α) (dim : ℕ) (idx : List ℕ) : α :=
  (List.range (x.shape.getD dim 0)).foldl
    (fun a j => operators.max a (x.get (idx.set dim j))) (x.get (idx.set dim 0))

/-- Modelled from the spec: layer normalization as the spec describes it, per-position
mean and variance along the last axis (axis 3 of a 4-dimensional tensor), with the
denominator `variance + eps` exactly as flagged by the spec. -/
def layer_norm_spec (input : Tensor α) (eps : α) : Tensor α :=
  (input.sub (input.mean 3)).div ((input.var 3).map (fun v => v + eps))

lemma validIdx_cons {i s : ℕ} {is ss : List ℕ} :
    validIdx (i :: is) (s :: ss) = true ↔ i < s ∧ validIdx is ss = true := by
  simp [validIdx]

lemma encode_lt : ∀ {ss is : List ℕ}, validIdx is ss = true → encode ss is < ss.prod := by
  intro ss
  induction ss with
  | nil =>
    intro is h
    cases is with
    | nil => simp [encode]
    | cons i is => simp [validIdx] at h
  | cons s ss ih =>
    intro is h
    cases is with
    | nil => simp [validIdx] at h
    | cons i is =>
      rw [validIdx_cons] at h
      obtain ⟨h1, h2⟩ := h
      have he := ih h2
      calc encode (s :: ss) (i :: is) = i * ss.prod + encode ss is := rfl
        _ < i * ss.prod + ss.prod := by omega
        _ = (i + 1) * ss.prod := by ring
        _ ≤ s * ss.prod := Nat.mul_le_mul_right _ (by omega)
        _ = (s :: ss).prod := (List.prod_cons).symm

lemma decode_encode : ∀ {ss is : List ℕ}, validIdx is ss = true → decode ss (encode ss is) = is := by
  intro ss
  induction ss with
  | nil =>
    intro is h
    cases is with
    | nil => rfl
    | cons i is => simp [validIdx] at h
  | cons s ss ih =>
    intro is h
    cases is with
    | nil => simp [validIdx] at h
    | cons i is =>
      rw [validIdx_cons] at h
      obtain ⟨h1, h2⟩ := h
      have he : encode ss is < ss.prod := encode_lt h2
      have hP : 0 < ss.prod := by omega
      have hdiv : (i * ss.prod + encode ss is) / ss.prod = i := by
        rw [Nat.mul_comm i, Nat.mul_add_div hP, Nat.div_eq_of_lt he]
        omega
      have hmod : (i * ss.prod + encode ss is) % ss.prod = encode ss is := by
        rw [Nat.mul_comm i, Nat.mul_add_mod]
        exact Nat.mod_eq_of_lt he
      simp only [encode, decode, hdiv, hmod, ih h2]

lemma shape_pos : ∀ {ss is : List ℕ}, validIdx is ss = true → ∀ x ∈ ss, 0 < x := by
  intro ss
  induction ss with
  | nil => intro is _ x hx; simp at hx
  | cons s ss ih =>
    intro is h x hx
    cases is with
    | nil => simp [validIdx] at h
    | cons i is =>
      rw [validIdx_cons] at h
      rcases List.mem_cons.mp hx with hx | hx
      · omega
      · exact ih h.2 x hx

lemma zip_max_self : ∀ (s : List ℕ), List.zipWith Nat.max s s = s := by
  intro s
  induction s with
  | nil => rfl
  | cons a l ih => simp [List.zipWith, Nat.max_self, ih]

lemma zip_max_set_one_right :
    ∀ (s : List ℕ) (d : ℕ), (∀ x ∈ s, 0 < x) → List.zipWith Nat.max s (s.set d 1) = s := by
  intro s
  induction s with
  | nil => intro d _; rfl
  | cons a l ih =>
    intro d h
    cases d with
    | zero =>
      have ha : 0 < a := h a (List.mem_cons_self a l)
      simp [List.set, List.zipWith, zip_max_self, Nat.max_eq_left (by omega : 1 ≤ a)]
    | succ d =>
      simp only [List.set, List.zipWith, Nat.max_self]
      rw [ih d (fun x hx => h x (List.mem_cons_of_mem a hx))]

lemma zip_max_set_one_left :
    ∀ (s : List ℕ) (d : ℕ), (∀ x ∈ s, 0 < x) → List.zipWith Nat.max (s.set d 1) s = s := by
  intro s
  induction s with
  | nil => intro d _; rfl
  | cons a l ih =>
    intro d h
    cases d with
    | zero =>
      have ha : 0 < a := h a (List.mem_cons_self a l)
      simp [List.set, List.zipWith, zip_max_self, Nat.max_eq_right (by omega : 1 ≤ a)]
    | succ d =>
      simp only [List.set, List.zipWith, Nat.max_self]
      rw [ih d (fun x hx => h x (List.mem_cons_of_mem a hx))]

lemma broadcastIdx_self : ∀ {ss is : List ℕ}, validIdx is ss = true → broadcastIdx is ss = is := by
  intro ss
  induction ss with
  | nil =>
    intro is h
    cases is with
    | nil => rfl
    | cons i is => simp [validIdx] at h
  | cons s ss ih =>
    intro is h
    cases is with
    | nil => simp [validIdx] at h
    | cons i is =>
      rw [validIdx_cons] at h
      simp only [broadcastIdx, List.zipWith, Nat.mod_eq_of_lt h.1]
      rw [show List.zipWith (fun i d => i % d) is ss = broadcastIdx is ss from rfl, ih h.2]

lemma broadcastIdx_set_one :
    ∀ {ss is : List ℕ} (d : ℕ), validIdx is ss = true →
      broadcastIdx is (ss.set d 1) = is.set d 0 := by
  intro ss
  induction ss with
  | nil =>
    intro is d h
    cases is with
    | nil => rfl
    | cons i is => simp [validIdx] at h
  | cons s ss ih =>
    intro is d h
    cases is with
    | nil => simp [validIdx] at h
    | cons i is =>
      rw [validIdx_cons] at h
      cases d with
      | zero =>
        simp only [List.set, broadcastIdx, List.zipWith, Nat.mod_one]
        rw [show List.zipWith (fun i d => i % d) is ss = broadcastIdx is ss from rfl,
          broadcastIdx_self h.2]
      | succ d =>
        simp only [List.set, broadcastIdx, List.zipWith, Nat.mod_eq_of_lt h.1]
        rw [show List.zipWith (fun i d => i % d) is (ss.set d 1)
              = broadcastIdx is (ss.set d 1) from rfl, ih d h.2]

lemma validIdx_set :
    ∀ {ss is : List ℕ} (d j : ℕ), validIdx is ss = true → j < ss.getD d 0 →
      validIdx (is.set d j) ss = true := by
  intro ss
  induction ss with
  | nil =>
    intro is d j h hj
    simp [List.getD] at hj
  | cons s ss ih =>
    intro is d j h hj
    cases is with
    | nil => simp [validIdx] at h
    | cons i is =>
      rw [validIdx_cons] at h
      cases d with
      | zero =>
        simp only [List.getD_cons_zero] at hj
        simpa [List.set, validIdx_cons] using ⟨hj, h.2⟩
      | succ d =>
        simp only [List.getD_cons_succ] at hj
        simpa [List.set, validIdx_cons] using ⟨h.1, ih d j h.2 hj⟩

lemma validIdx_set_zero_one :
    ∀ {ss is : List ℕ} (d : ℕ), validIdx is ss = true →
      validIdx (is.set d 0) (ss.set d 1) = true := by
  intro ss
  induction ss with
  | nil =>
    intro is d h
    cases is with
    | nil => simp [List.set]; exact h
    | cons i is => simp [validIdx] at h
  | cons s ss ih =>
    intro is d h
    cases is with
    | nil => simp [validIdx] at h
    | cons i is =>
      rw [validIdx_cons] at h
      cases d with
      | zero => simpa [List.set, validIdx_cons] using h.2
      | succ d => simpa [List.set, validIdx_cons] using ⟨h.1, ih d h.2⟩

lemma validIdx_getD :
    ∀ {ss is : List ℕ} (d : ℕ), validIdx is ss = true → d < is.length →
      is.getD d 0 < ss.getD d 0 := by
  intro ss
  induction ss with
  | nil =>
    intro is d h hd
    cases is with
    | nil => simp at hd
    | cons i is => simp [validIdx] at h
  | cons s ss ih =>
    intro is d h hd
    cases is with
    | nil => simp [validIdx] at h
    | cons i is =>
      rw [validIdx_cons] at h
      cases d with
      | zero => simpa using h.1
      | succ d =>
        simp only [List.getD_cons_succ]
        exact ih d h.2 (by simpa using hd)

lemma get_view (t : Tensor α) (ns idx : List ℕ) :
    (t.view ns).get idx = t.data (encode ns idx) := rfl

lemma map_view_get (t : Tensor α) (g : α → α) (ns idx : List ℕ) :
    ((t.map g).view ns).get idx = g ((t.view ns).get idx) := rfl

lemma zip_shape_left {a b : Tensor α} {d : ℕ} (f : α → α → α)
    (hb : b.shape = a.shape.set d 1) (hpos : ∀ x ∈ a.shape, 0 < x) :
    (Tensor.zipWith f a b).shape = a.shape := by
  show List.zipWith Nat.max a.shape b.shape = a.shape
  rw [hb]
  exact zip_max_set_one_right _ _ hpos

lemma zip_shape_right {a b : Tensor α} {d : ℕ} (f : α → α → α)
    (hb : b.shape = a.shape.set d 1) (hpos : ∀ x ∈ a.shape, 0 < x) :
    (Tensor.zipWith f b a).shape = a.shape := by
  show List.zipWith Nat.max b.shape a.shape = a.shape
  rw [hb]
  exact zip_max_set_one_left _ _ hpos

lemma zip_shape_same {a b : Tensor α} (f : α → α → α) (hb : b.shape = a.shape) :
    (Tensor.zipWith f a b).shape = a.shape := by
  show List.zipWith Nat.max a.shape b.shape = a.shape
  rw [hb]
  exact zip_max_self _

lemma zip_get_left {a b : Tensor α} (d : ℕ) (f : α → α → α) {idx : List ℕ}
    (hb : b.shape = a.shape.set d 1) (hidx : validIdx idx a.shape = true) :
    (Tensor.zipWith f a b).get idx = f (a.get idx) (b.get (idx.set d 0)) := by
  have hsh : List.zipWith Nat.max a.shape b.shape = a.shape := by
    rw [hb]; exact zip_max_set_one_right _ _ (shape_pos hidx)
  show f (a.get (broadcastIdx (decode (List.zipWith Nat.max a.shape b.shape)
        (encode (List.zipWith Nat.max a.shape b.shape) idx)) a.shape))
      (b.get (broadcastIdx (decode (List.zipWith Nat.max a.shape b.shape)
        (encode (List.zipWith Nat.max a.shape b.shape) idx)) b.shape)) = _
  rw [hsh, decode_encode hidx, broadcastIdx_self hidx, hb, broadcastIdx_set_one d hidx]

lemma zip_get_right {a b : Tensor α} (d : ℕ) (f : α → α → α) {idx : List ℕ}
    (hb : b.shape = a.shape.set d 1) (hidx : validIdx idx a.shape = true) :
    (Tensor.zipWith f b a).get idx = f (b.get (idx.set d 0)) (a.get idx) := by
  have hsh : List.zipWith Nat.max b.shape a.shape = a.shape := by
    rw [hb]; exact zip_max_set_one_left _ _ (shape_pos hidx)
  show f (b.get (broadcastIdx (decode (List.zipWith Nat.max b.shape a.shape)
        (encode (List.zipWith Nat.max b.shape a.shape) idx)) b.shape))
      (a.get (broadcastIdx (decode (List.zipWith Nat.max b.shape a.shape)
        (encode (List.zipWith Nat.max b.shape a.shape) idx)) a.shape)) = _
  rw [hsh, decode_encode hidx, broadcastIdx_self hidx, hb, broadcastIdx_set_one d hidx]

lemma zip_get_same {a b : Tensor α} (f : α → α → α) {idx : List ℕ}
    (hb : b.shape = a.shape) (hidx : validIdx idx a.shape = true) :
    (Tensor.zipWith f a b).get idx = f (a.get idx) (b.get idx) := by
  have hsh : List.zipWith Nat.max a.shape b.shape = a.shape := by
    rw [hb]; exact zip_max_self _
  show f (a.get (broadcastIdx (decode (List.zipWith Nat.max a.shape b.shape)
        (encode (List.zipWith Nat.max a.shape b.shape) idx)) a.shape))
      (b.get (broadcastIdx (decode (List.zipWith Nat.max a.shape b.shape)
        (encode (List.zipWith Nat.max a.shape b.shape) idx)) b.shape)) = _
  rw [hsh, decode_encode hidx, broadcastIdx_self hidx, hb, broadcastIdx_self hidx]

lemma reduce_shape (t : Tensor α) (f : α → α → α) (init : α) (d : ℕ) :
    (t.reduce f init d).shape = t.shape.set d 1 := rfl

lemma reduce_get (t : Tensor α) (f : α → α → α) (init : α) (d : ℕ) {idx : List ℕ}
    (hidx : validIdx idx t.shape = true) :
    (t.reduce f init d).get (idx.set d 0) =
      (List.range (t.shape.getD d 0)).foldl (fun acc j => f acc (t.get (idx.set d j))) init := by
  have hv : validIdx (idx.set d 0) (t.shape.set d 1) = true := validIdx_set_zero_one d hidx
  show (List.range (t.shape.getD d 0)).foldl
      (fun acc j => f acc (t.get ((decode (t.shape.set d 1)
        (encode (t.shape.set d 1) (idx.set d 0))).set d j))) init = _
  rw [decode_encode hv]
  simp only [List.set_set]

lemma foldl_add_const (v : ℕ → α) (cst : α) :
    ∀ (n : ℕ), (∀ k < n, v k = cst) →
      (List.range n).foldl (fun a k => a + v k) 0 = (n : α) * cst := by
  intro n
  induction n with
  | zero => intro _; simp
  | succ m ih =>
    intro h
    rw [List.range_succ, List.foldl_append]
    simp only [List.foldl_cons, List.foldl_nil]
    rw [ih (fun k hk => h k (by omega)), h m (by omega)]
    push_cast
    ring

lemma foldl_add_pos (w : ℕ → α) :
    ∀ (l : List ℕ) (init : α), (∀ j ∈ l, 0 < w j) → 0 ≤ init → (l ≠ [] ∨ 0 < init) →
      0 < l.foldl (fun a j => a + w j) init := by
  intro l
  induction l with
  | nil =>
    intro init _ _ hne
    rcases hne with hne | hpos
    · exact absurd rfl hne
    · exact hpos
  | cons j l ih =>
    intro init hw h0 _
    have hj : 0 < w j := hw j (List.mem_cons_self j l)
    simp only [List.foldl_cons]
    exact ih (init + w j) (fun x hx => hw x (List.mem_cons_of_mem j hx))
      (by linarith) (Or.inr (by linarith))

lemma le_maxOp_left (a b : α) : a ≤ operators.max a b := by
  unfold operators.max
  split
  · exact le_refl a
  · exact le_of_not_lt (by assumption)

lemma le_maxOp_right (a b : α) : b ≤ operators.max a b := by
  unfold operators.max
  split
  · exact le_of_lt (by assumption)
  · exact le_refl b

lemma maxOp_eq_or (a b : α) : operators.max a b = a ∨ operators.max a b = b := by
  unfold operators.max
  split
  · exact Or.inl rfl
  · exact Or.inr rfl

lemma foldl_max_init_le (w : ℕ → α) :
    ∀ (l : List ℕ) (init : α), init ≤ l.foldl (fun a j => operators.max a (w j)) init := by
  intro l
  induction l with
  | nil => intro init; exact le_refl init
  | cons j l ih =>
    intro init
    simp only [List.foldl_cons]
    exact le_trans (le_maxOp_left init (w j)) (ih (operators.max init (w j)))

lemma foldl_max_le (w : ℕ → α) :
    ∀ (l : List ℕ) (init : α) (j : ℕ), j ∈ l →
      w j ≤ l.foldl (fun a x => operators.max a (w x)) init := by
  intro l
  induction l with
  | nil => intro init j hj; simp at hj
  | cons x l ih =>
    intro init j hj
    simp only [List.foldl_cons]
    rcases List.mem_cons.mp hj with hj | hj
    · subst hj
      exact le_trans (le_maxOp_right init (w j)) (foldl_max_init_le w l _)
    · exact ih _ j hj

lemma foldl_max_eq_init_or (w : ℕ → α) :
    ∀ (l : List ℕ) (init : α),
      l.foldl (fun a j => operators.max a (w j)) init = init ∨
        ∃ j ∈ l, l.foldl (fun a j => operators.max a (w j)) init = w j := by
  intro l
  induction l with
  | nil => intro init; exact Or.inl rfl
  | cons x l ih =>
    intro init
    simp only [List.foldl_cons]
    rcases ih (operators.max init (w x)) with h | ⟨j, hj, h⟩
    · rcases maxOp_eq_or init (w x) with h2 | h2
      · exact Or.inl (h.trans h2)
      · exact Or.inr ⟨x, List.mem_cons_self x l, h.trans h2⟩
    · exact Or.inr ⟨j, List.mem_cons_of_mem x hj, h⟩

lemma foldl_max_eq_init (w : ℕ → α) (l : List ℕ) (init : α) (h : ∀ j ∈ l, w j < init) :
    l.foldl (fun a j => operators.max a (w j)) init = init := by
  rcases foldl_max_eq_init_or w l init with h1 | ⟨j, hj, h1⟩
  · exact h1
  · have h2 := foldl_max_init_le w l init
    have h3 := h j hj
    rw [h1] at h2
    linarith

lemma applyPerm_perm6 (x0 x1 x2 x3 x4 x5 : ℕ) :
    applyPerm [0, 1, 2, 4, 3, 5] [x0, x1, x2, x3, x4, x5] = [x0, x1, x2, x4, x3, x5] := rfl

lemma invPerm_perm6 : invPerm [0, 1, 2, 4, 3, 5] = [0, 1, 2, 4, 3, 5] := by decide

lemma encode_split_last (b c nh nw kh kw b' c' i j k : ℕ) :
    encode [b, c, nh, nw, kh * kw] [b', c', i, j, k]
      = encode [b, c, nh, nw, kh, kw] [b', c', i, j, k / kw, k % kw] := by
  simp only [encode, List.prod_cons, List.prod_nil]
  nth_rewrite 1 [← Nat.div_add_mod' k kw]
  ring

lemma encode_merge_last (b c nh nw kh kw b' c' i j p q : ℕ) :
    encode [b, c, nh, nw, kh, kw] [b', c', i, j, p, q]
      = encode [b, c, nh, nw, kh * kw] [b', c', i, j, p * kw + q] := by
  simp only [encode, List.prod_cons, List.prod_nil]
  ring

lemma encode_unsplit (b c nh kh nw kw b' c' i p j q : ℕ) :
    encode [b, c, nh, kh, nw, kw] [b', c', i, p, j, q]
      = encode [b, c, kh * nh, kw * nw] [b', c', i * kh + p, j * kw + q] := by
  simp only [encode, List.prod_cons, List.prod_nil]
  ring

lemma encode_split_hw (b c nh kh nw kw b' c' y x : ℕ) :
    encode [b, c, kh * nh, kw * nw] [b', c', y, x]
      = encode [b, c, nh, kh, nw, kw] [b', c', y / kh, y % kh, x / kw, x % kw] := by
  simp only [encode, List.prod_cons, List.prod_nil]
  nth_rewrite 1 [← Nat.div_add_mod' y kh]
  nth_rewrite 1 [← Nat.div_add_mod' x kw]
  ring

lemma encode_snoc_zero (b c nh nw b' c' i j : ℕ) :
    encode [b, c, nh, nw] [b', c', i, j] = encode [b, c, nh, nw, 1] [b', c', i, j, 0] := by
  simp only [encode, List.prod_cons, List.prod_nil]
  ring

lemma tile_eq (d : ℕ → α) (b c h w kh kw : ℕ) (hh : h % kh = 0) (hw : w % kw = 0) :
    tile (⟨[b, c, h, w], d⟩ : Tensor α) (kh, kw)
      = some (tileT d b c h w kh kw, h / kh, w / kw) := by
  show (if h % kh = 0 ∧ w % kw = 0 then _ else none) = _
  rw [if_pos ⟨hh, hw⟩]
  rfl

lemma tile_none (d : ℕ → α) (b c h w kh kw : ℕ) (hne : h % kh ≠ 0 ∨ w % kw ≠ 0) :
    tile (⟨[b, c, h, w], d⟩ : Tensor α) (kh, kw) = none := by
  show (if h % kh = 0 ∧ w % kw = 0 then _ else none) = none
  rw [if_neg (by tauto)]

lemma tileT_get (d : ℕ → α) (b c h w kh kw b' c' i j k : ℕ)
    (hkw : 0 < kw) (hh : h % kh = 0) (hw : w % kw = 0)
    (hb : b' < b) (hc : c' < c) (hi : i < h / kh) (hj : j < w / kw) (hk : k < kh * kw) :
    (tileT d b c h w kh kw).get [b', c', i, j, k]
      = d (encode [b, c, h, w] [b', c', i * kh + k / kw, j * kw + k % kw]) := by
  have hq : k / kw < kh := by
    rw [Nat.div_lt_iff_lt_mul hkw]
    exact hk
  have hr : k % kw < kw := Nat.mod_lt _ hkw
  have hval : validIdx [b', c', i, j, k / kw, k % kw] [b, c, h / kh, w / kw, kh, kw] = true := by
    simp [validIdx, hb, hc, hi, hj, hq, hr]
  show d (encode [b, c, h / kh, kh, w / kw, kw]
      (applyPerm (invPerm [0, 1, 2, 4, 3, 5])
        (decode (applyPerm [0, 1, 2, 4, 3, 5] [b, c, h / kh, kh, w / kw, kw])
          (encode [b, c, h / kh, w / kw, kh * kw] [b', c', i, j, k])))) = _
  rw [applyPerm_perm6, encode_split_last, decode_encode hval, invPerm_perm6, applyPerm_perm6,
    encode_unsplit, Nat.mul_div_cancel' (Nat.dvd_of_mod_eq_zero hh),
    Nat.mul_div_cancel' (Nat.dvd_of_mod_eq_zero hw)]

lemma tileT_shape (d : ℕ → α) (b c h w kh kw : ℕ) :
    (tileT d b c h w kh kw).shape = [b, c, h / kh, w / kw, kh * kw] := rfl

lemma pool_get (d : ℕ → α) (f : α → α → α) (init : α) (b c h w kh kw b' c' i j : ℕ)
    (hkw : 0 < kw) (hh : h % kh = 0) (hw : w % kw = 0)
    (hb : b' < b) (hc : c' < c) (hi : i < h / kh) (hj : j < w / kw) :
    (((tileT d b c h w kh kw).reduce f init 4).view [b, c, h / kh, w / kw]).get [b', c', i, j]
      = (List.range (kh * kw)).foldl
          (fun acc k =>
            f acc (d (encode [b, c, h, w] [b', c', i * kh + k / kw, j * kw + k % kw]))) init := by
  have hval : validIdx [b', c', i, j, 0] [b, c, h / kh, w / kw, 1] = true := by
    simp [validIdx, hb, hc, hi, hj]
  rw [get_view, encode_snoc_zero]
  show (List.range (((tileT d b c h w kh kw).shape).getD 4 0)).foldl
      (fun acc k => f acc ((tileT d b c h w kh kw).get
        ((decode (((tileT d b c h w kh kw).shape).set 4 1)
          (encode [b, c, h / kh, w / kw, 1] [b', c', i, j, 0])).set 4 k))) init = _
  rw [tileT_shape]
  show (List.range (kh * kw)).foldl
      (fun acc k => f acc ((tileT d b c h w kh kw).get
        ((decode [b, c, h / kh, w / kw, 1]
          (encode [b, c, h / kh, w / kw, 1] [b', c', i, j, 0])).set 4 k))) init = _
  rw [decode_encode hval]
  refine List.foldl_ext _ _ init (fun acc k hk => ?_)
  have hk' : k < kh * kw := List.mem_range.mp hk
  have hset : List.set [b', c', i, j, 0] 4 k = [b', c', i, j, k] := rfl
  rw [hset, tileT_get d b c h w kh kw b' c' i j k hkw hh hw hb hc hi hj hk']

lemma max_reduce_get (x : Tensor α) (dm : ℕ) {idx : List ℕ}
    (hidx : validIdx idx x.shape = true) :
    (max_reduce x dm).get (idx.set dm 0) =
      (List.range (x.shape.getD dm 0)).foldl
        (fun a j => operators.max a (x.get (idx.set dm j))) (-(10 ^ 9)) :=
  reduce_get x operators.max _ dm hidx

lemma argmax_shape (x : Tensor α) (dm : ℕ) {idx : List ℕ}
    (hidx : validIdx idx x.shape = true) :
    (argmax x dm).shape = x.shape := by
  show (Tensor.zipWith (fun u v => if u = v then 1 else 0) (max_reduce x dm) x).shape = x.shape
  exact zip_shape_right (d := dm) _ rfl (shape_pos hidx)

lemma argmax_get (x : Tensor α) (dm : ℕ) {idx : List ℕ}
    (hidx : validIdx idx x.shape = true) :
    (argmax x dm).get idx
      = if (max_reduce x dm).get (idx.set dm 0) = x.get idx then 1 else 0 := by
  show (Tensor.zipWith (fun u v => if u = v then 1 else 0) (max_reduce x dm) x).get idx = _
  exact zip_get_right dm _ rfl hidx

lemma sliceMax_ge (x : Tensor α) (dm : ℕ) (idx : List ℕ) {j : ℕ}
    (hj : j < x.shape.getD dm 0) :
    x.get (idx.set dm j) ≤ sliceMax x dm idx := by
  unfold sliceMax
  exact foldl_max_le (fun j => x.get (idx.set dm j)) _ _ j (List.mem_range.mpr hj)

lemma sliceMax_attained (x : Tensor α) (dm : ℕ) (idx : List ℕ)
    (hs : 0 < x.shape.getD dm 0) :
    ∃ j < x.shape.getD dm 0, sliceMax x dm idx = x.get (idx.set dm j) := by
  rcases foldl_max_eq_init_or (fun j => x.get (idx.set dm j))
      (List.range (x.shape.getD dm 0)) (x.get (idx.set dm 0)) with h | ⟨j, hj, h⟩
  · exact ⟨0, hs, h⟩
  · exact ⟨j, List.mem_range.mp hj, h⟩

lemma max_reduce_eq_sliceMax (x : Tensor α) (dm : ℕ) {idx : List ℕ}
    (hidx : validIdx idx x.shape = true) (hs : 0 < x.shape.getD dm 0)
    (hge : -(10 ^ 9) ≤ sliceMax x dm idx) :
    (max_reduce x dm).get (idx.set dm 0) = sliceMax x dm idx := by
  rw [max_reduce_get x dm hidx]
  obtain ⟨j0, hj0, hsm⟩ := sliceMax_attained x dm idx hs
  rcases foldl_max_eq_init_or (fun j => x.get (idx.set dm j))
      (List.range (x.shape.getD dm 0)) (-(10 ^ 9)) with h | ⟨j, hj, h⟩
  · rw [h]
    have h1 : x.get (idx.set dm j0) ≤ (List.range (x.shape.getD dm 0)).foldl
        (fun a j => operators.max a (x.get (idx.set dm j))) (-(10 ^ 9)) :=
      foldl_max_le (fun j => x.get (idx.set dm j)) _ _ j0 (List.mem_range.mpr hj0)
    rw [h] at h1
    rw [hsm] at hge ⊢
    linarith
  · rw [h]
    have h1 : x.get (idx.set dm j) ≤ sliceMax x dm idx :=
      sliceMax_ge x dm idx (List.mem_range.mp hj)
    have h2 : x.get (idx.set dm j0) ≤ (List.range (x.shape.getD dm 0)).foldl
        (fun a j => operators.max a (x.get (idx.set dm j))) (-(10 ^ 9)) :=
      foldl_max_le (fun j => x.get (idx.set dm j)) _ _ j0 (List.mem_range.mpr hj0)
    rw [h] at h2
    rw [hsm] at h1 ⊢
    linarith

/-- C1: for every 4-dimensional input of shape batch x channel x height x width and every
kernel (kh, kw) with height % kh = 0 and width % kw = 0, tile returns a tensor of shape
batch x channel x height/kh x width/kw x (kh*kw) whose last axis holds the elements of the
corresponding kh x kw block contiguously (entry k of the last axis is the input element at
row i*kh + k/kw and column j*kw + k%kw), together with new_height = height/kh and
new_width = width/kw; if height % kh is nonzero or width % kw is nonzero, tile fails with
an assertion, modelled as returning none. -/
theorem c1_tile_shape_content (d : ℕ → α) (b c h w kh kw : ℕ) (hkw : 0 < kw) :
    (h % kh = 0 → w % kw = 0 →
      ∃ t : Tensor α,
        tile ⟨[b, c, h, w], d⟩ (kh, kw) = some (t, h / kh, w / kw) ∧
        t.shape = [b, c, h / kh, w / kw, kh * kw] ∧
        ∀ b' c' i j k, b' < b → c' < c → i < h / kh → j < w / kw → k < kh * kw →
          t.get [b', c', i, j, k]
            = Tensor.get (⟨[b, c, h, w], d⟩ : Tensor α)
                [b', c', i * kh + k / kw, j * kw + k % kw]) ∧
    ((h % kh ≠ 0 ∨ w % kw ≠ 0) → tile (⟨[b, c, h, w], d⟩ : Tensor α) (kh, kw) = none) := by
  constructor
  · intro hh hw
    refine ⟨tileT d b c h w kh kw, tile_eq d b c h w kh kw hh hw,
      tileT_shape d b c h w kh kw, ?_⟩
    intro b' c' i j k hb hc hi hj hk
    exact tileT_get d b c h w kh kw b' c' i j k hkw hh hw hb hc hi hj hk
  · exact tile_none d b c h w kh kw

/-- Witness for C1 at the spec's example: a constant-one 1x1x4x4 tensor with kernel (2,2)
tiles to shape 1x1x2x2x4 with new_height = new_width = 2 and trailing values 1. -/
theorem c1_witness :
    ∃ t : Tensor ℚ,
      tile ⟨[1, 1, 4, 4], fun _ => 1⟩ (2, 2) = some (t, 2, 2) ∧
      t.shape = [1, 1, 2, 2, 4] ∧ t.get [0, 0, 1, 1, 3] = 1 := by
  obtain ⟨t, ht, hs, hg⟩ :=
    (c1_tile_shape_content (fun _ => (1 : ℚ)) 1 1 4 4 2 2 (by decide)).1 rfl rfl
  refine ⟨t, by simpa using ht, by simpa using hs, ?_⟩
  have hval := hg 0 0 1 1 3 (by decide) (by decide) (by decide) (by decide) (by decide)
  simpa [Tensor.get] using hval

/-- C2: tile followed by the inverse sequence (view to batch x channel x new_height x
new_width x kh x kw, permute (0,1,2,4,3,5) back, view to batch x channel x height x width)
reconstructs the original input at every position. -/
theorem c2_tile_roundtrip (d : ℕ → α) (b c h w kh kw : ℕ) (hkh : 0 < kh) (hkw : 0 < kw)
    (t : Tensor α) (nh nw : ℕ)
    (ht : tile (⟨[b, c, h, w], d⟩ : Tensor α) (kh, kw) = some (t, nh, nw))
    (b' c' y x : ℕ) (hb : b' < b) (hc : c' < c) (hy : y < h) (hx : x < w) :
    ((((t.view [b, c, nh, nw, kh, kw]).permute [0, 1, 2, 4, 3, 5]).contiguous).view
        [b, c, h, w]).get [b', c', y, x]
      = Tensor.get (⟨[b, c, h, w], d⟩ : Tensor α) [b', c', y, x] := by
  have hh : h % kh = 0 := by
    by_contra hne
    rw [tile_none d b c h w kh kw (Or.inl hne)] at ht
    exact Option.noConfusion ht
  have hw : w % kw = 0 := by
    by_contra hne
    rw [tile_none d b c h w kh kw (Or.inr hne)] at ht
    exact Option.noConfusion ht
  rw [tile_eq d b c h w kh kw hh hw] at ht
  have hinj := Option.some.inj ht
  rw [Prod.ext_iff] at hinj
  obtain ⟨he1, he2⟩ := hinj
  rw [Prod.ext_iff] at he2
  obtain ⟨he2, he3⟩ := he2
  subst he1
  subst he2
  subst he3
  have hnh : kh * (h / kh) = h := Nat.mul_div_cancel' (Nat.dvd_of_mod_eq_zero hh)
  have hnw : kw * (w / kw) = w := Nat.mul_div_cancel' (Nat.dvd_of_mod_eq_zero hw)
  have hi : y / kh < h / kh := by
    rw [Nat.div_lt_iff_lt_mul hkh, Nat.mul_comm (h / kh) kh, hnh]
    exact hy
  have hp : y % kh < kh := Nat.mod_lt _ hkh
  have hj : x / kw < w / kw := by
    rw [Nat.div_lt_iff_lt_mul hkw, Nat.mul_comm (w / kw) kw, hnw]
    exact hx
  have hq : x % kw < kw := Nat.mod_lt _ hkw
  have hval6 : validIdx [b', c', y / kh, y % kh, x / kw, x % kw]
      [b, c, h / kh, kh, w / kw, kw] = true := by
    simp [validIdx, hb, hc, hi, hp, hj, hq]
  have hsplit : encode [b, c, h, w] [b', c', y, x]
      = encode [b, c, h / kh, kh, w / kw, kw] [b', c', y / kh, y % kh, x / kw, x % kw] := by
    conv_lhs => rw [← hnh, ← hnw]
    rw [encode_split_hw]
  have hk : (y % kh) * kw + x % kw < kh * kw := by
    calc (y % kh) * kw + x % kw < (y % kh) * kw + kw := by omega
      _ = (y % kh + 1) * kw := by ring
      _ ≤ kh * kw := Nat.mul_le_mul_right _ (by omega)
  have hdiv : ((y % kh) * kw + x % kw) / kw = y % kh := by
    rw [Nat.mul_comm, Nat.mul_add_div hkw, Nat.div_eq_of_lt hq]
    omega
  have hmod : ((y % kh) * kw + x % kw) % kw = x % kw := by
    rw [Nat.mul_comm, Nat.mul_add_mod]
    exact Nat.mod_eq_of_lt hq
  have hmain := tileT_get d b c h w kh kw b' c' (y / kh) (x / kw)
      ((y % kh) * kw + x % kw) hkw hh hw hb hc hi hj hk
  rw [hdiv, hmod, Nat.div_add_mod' y kh, Nat.div_add_mod' x kw] at hmain
  show (tileT d b c h w kh kw).data
      (encode [b, c, h / kh, w / kw, kh, kw]
        (applyPerm (invPerm [0, 1, 2, 4, 3, 5])
          (decode (applyPerm [0, 1, 2, 4, 3, 5] [b, c, h / kh, w / kw, kh, kw])
            (encode [b, c, h, w] [b', c', y, x])))) = _
  rw [applyPerm_perm6, hsplit, decode_encode hval6, invPerm_perm6, applyPerm_perm6,
    encode_merge_last]
  exact hmain

/-- Witness for C2: the round trip through tile restores a 1x1x2x2 tensor at (0,0,1,1). -/
theorem c2_witness :
    (((((tileT (fun n => (n : ℚ)) 1 1 2 2 2 2).view [1, 1, 1, 1, 2, 2]).permute
        [0, 1, 2, 4, 3, 5]).contiguous).view [1, 1, 2, 2]).get [0, 0, 1, 1]
      = Tensor.get (⟨[1, 1, 2, 2], fun n => (n : ℚ)⟩ : Tensor ℚ) [0, 0, 1, 1] :=
  c2_tile_roundtrip (fun n => (n : ℚ)) 1 1 2 2 2 2 (by decide) (by decide) _ 1 1
    (tile_eq _ 1 1 2 2 2 2 rfl rfl) 0 0 1 1 (by decide) (by decide) (by decide) (by decide)

/-- C3: Max.backward returns as gradient for the input the elementwise product
(out == input) * grad_output where out is the saved max-reduction output: every position
whose value equals the per-slice reduction output receives the upstream gradient (all
tied positions included), every other position receives 0; the gradient returned for the
dim argument is the constant 0. -/
theorem c3_max_backward (x g : Tensor α) (dm : ℕ) (idx : List ℕ)
    (hidx : validIdx idx x.shape = true)
    (hg : g.shape = x.shape.set dm 1) :
    (Max.backward x (max_reduce x dm) g).1.shape = x.shape ∧
    (Max.backward x (max_reduce x dm) g).1.get idx
      = (if x.get idx = (max_reduce x dm).get (idx.set dm 0)
          then g.get (idx.set dm 0) else 0) ∧
    (Max.backward x (max_reduce x dm) g).2 = 0 := by
  have hmask : (argmax x dm).shape = x.shape := argmax_shape x dm hidx
  have hb : g.shape = (argmax x dm).shape.set dm 1 := by rw [hmask]; exact hg
  refine ⟨?_, ?_, rfl⟩
  · show (Tensor.zipWith (fun u v => u * v) (argmax x dm) g).shape = x.shape
    rw [zip_shape_left (d := dm) _ hb (by rw [hmask]; exact shape_pos hidx), hmask]
  · show (Tensor.zipWith (fun u v => u * v) (argmax x dm) g).get idx = _
    have hidx' : validIdx idx (argmax x dm).shape = true := by rw [hmask]; exact hidx
    rw [zip_get_left dm _ hb hidx', argmax_get x dm hidx]
    by_cases hcase : (max_reduce x dm).get (idx.set dm 0) = x.get idx
    · rw [if_pos hcase, if_pos hcase.symm, one_mul]
    · rw [if_neg hcase, if_neg (fun hx => hcase hx.symm), zero_mul]

/-- Witness for C3: on the input [0, 1] with upstream gradient [5], position 1 holds the
maximum and receives gradient 5; the dim gradient is 0. -/
theorem c3_witness :
    (Max.backward (⟨[2], fun n => (n : ℚ)⟩ : Tensor ℚ)
        (max_reduce (⟨[2], fun n => (n : ℚ)⟩ : Tensor ℚ) 0) ⟨[1], fun _ => 5⟩).1.get [1] = 5 ∧
    (Max.backward (⟨[2], fun n => (n : ℚ)⟩ : Tensor ℚ)
        (max_reduce (⟨[2], fun n => (n : ℚ)⟩ : Tensor ℚ) 0) ⟨[1], fun _ => 5⟩).2 = 0 := by
  obtain ⟨-, h2, h3⟩ := c3_max_backward (⟨[2], fun n => (n : ℚ)⟩ : Tensor ℚ)
      ⟨[1], fun _ => 5⟩ 0 [1] (by decide) rfl
  refine ⟨?_, h3⟩
  rw [h2]
  decide

/-- C4 (amended): argmax returns a tensor of the input's shape containing only 0s and 1s;
provided the slice maximum is at least -1e9 (the identity element of the underlying
reduction), the 1-entries of a slice are exactly the positions whose value equals the
slice maximum (exactly one if unique, all tied entries otherwise) and at least one
1-entry exists.  Without that proviso the mask can be all zero on a slice, see the
counterexample. -/
theorem c4_argmax_amended (x : Tensor α) (dm : ℕ) (idx : List ℕ)
    (hdm : dm < idx.length) (hidx : validIdx idx x.shape = true) :
    (argmax x dm).shape = x.shape ∧
    ((argmax x dm).get idx = 0 ∨ (argmax x dm).get idx = 1) ∧
    (-(10 ^ 9) ≤ sliceMax x dm idx →
      ((argmax x dm).get idx = 1 ↔ x.get idx = sliceMax x dm idx) ∧
      ∃ j < x.shape.getD dm 0, (argmax x dm).get (idx.set dm j) = 1) := by
  have hs : 0 < x.shape.getD dm 0 :=
    lt_of_le_of_lt (Nat.zero_le _) (validIdx_getD dm hidx hdm)
  refine ⟨argmax_shape x dm hidx, ?_, ?_⟩
  · rw [argmax_get x dm hidx]
    split
    · exact Or.inr rfl
    · exact Or.inl rfl
  · intro hge
    have hmr := max_reduce_eq_sliceMax x dm hidx hs hge
    obtain ⟨j0, hj0, hsm⟩ := sliceMax_attained x dm idx hs
    constructor
    · rw [argmax_get x dm hidx, hmr]
      constructor
      · intro h1
        by_contra hne
        rw [if_neg (fun hx => hne hx.symm)] at h1
        exact zero_ne_one h1
      · intro hxe
        rw [if_pos hxe.symm]
    · refine ⟨j0, hj0, ?_⟩
      have hidxj : validIdx (idx.set dm j0) x.shape = true := validIdx_set dm j0 hidx hj0
      rw [argmax_get x dm hidxj, List.set_set, hmr, if_pos hsm]

/-- Witness for C4 at the input [0, 1] along axis 0: the mask has the input's shape and
is 1 at position 1 exactly because position 1 attains the slice maximum. -/
theorem c4_witness :
    (argmax (⟨[2], fun n => (n : ℚ)⟩ : Tensor ℚ) 0).shape = [2] ∧
    ((argmax (⟨[2], fun n => (n : ℚ)⟩ : Tensor ℚ) 0).get [1] = 1 ↔
      Tensor.get (⟨[2], fun n => (n : ℚ)⟩ : Tensor ℚ) [1]
        = sliceMax (⟨[2], fun n => (n : ℚ)⟩ : Tensor ℚ) 0 [1]) := by
  obtain ⟨h1, h2, h3⟩ := c4_argmax_amended (⟨[2], fun n => (n : ℚ)⟩ : Tensor ℚ) 0 [1]
    (by decide) (by decide)
  exact ⟨h1, (h3 (by decide)).1⟩

/-- Counterexample to C4 as stated: on the single-element input [-2e9], position 0
attains the maximum of its slice, yet the argmax mask entry there is 0, so the slice has
zero 1-entries, contradicting "the 1-entries are exactly the positions whose value equals
the maximum of that slice ... and never zero entries". -/
theorem c4_counterexample :
    Tensor.get (⟨[1], fun _ => -2000000000⟩ : Tensor ℚ) [0]
        = sliceMax (⟨[1], fun _ => -2000000000⟩ : Tensor ℚ) 0 [0] ∧
    (argmax (⟨[1], fun _ => -2000000000⟩ : Tensor ℚ) 0).get [0] = 0 := by
  decide

/-- C10: because max_reduce is built with identity element -1e9, a slice whose values
all lie strictly below -1e9 max-reduces (and `max` reduces) to -1e9, a value strictly
larger than every element of the slice, and argmax marks no position of that slice;
likewise a 4-d pooling block of such values makes maxpool2d return -1e9 for its entry. -/
theorem c10_identity_element (x : Tensor α) (dm : ℕ) (idx : List ℕ)
    (hidx : validIdx idx x.shape = true)
    (hlt : ∀ j < x.shape.getD dm 0, x.get (idx.set dm j) < -(10 ^ 9)) :
    (max_reduce x dm).get (idx.set dm 0) = -(10 ^ 9) ∧
    (max x dm).get (idx.set dm 0) = -(10 ^ 9) ∧
    (∀ j < x.shape.getD dm 0, x.get (idx.set dm j) < (max x dm).get (idx.set dm 0)) ∧
    (∀ j < x.shape.getD dm 0, (argmax x dm).get (idx.set dm j) = 0) ∧
    ∀ (d : ℕ → α) (b c h w kh kw b' c' i j : ℕ), 0 < kw →
      h % kh = 0 → w % kw = 0 → b' < b → c' < c → i < h / kh → j < w / kw →
      (∀ p q, p < kh → q < kw →
        Tensor.get (⟨[b, c, h, w], d⟩ : Tensor α) [b', c', i * kh + p, j * kw + q]
          < -(10 ^ 9)) →
      ∃ t : Tensor α, maxpool2d (⟨[b, c, h, w], d⟩ : Tensor α) (kh, kw) = some t ∧
        t.get [b', c', i, j] = -(10 ^ 9) := by
  have hmr : (max_reduce x dm).get (idx.set dm 0) = -(10 ^ 9) := by
    rw [max_reduce_get x dm hidx]
    exact foldl_max_eq_init (fun j => x.get (idx.set dm j)) _ _
      (fun j hj => hlt j (List.mem_range.mp hj))
  refine ⟨hmr, hmr, ?_, ?_, ?_⟩
  · intro j hj
    calc x.get (idx.set dm j) < -(10 ^ 9) := hlt j hj
      _ = (max x dm).get (idx.set dm 0) := hmr.symm
  · intro j hj
    rw [argmax_get x dm (validIdx_set dm j hidx hj), List.set_set, hmr,
      if_neg (ne_of_gt (hlt j hj))]
  · intro d b c h w kh kw b' c' i j hkw hh hw hb hc hi hj hblock
    have hmp : maxpool2d (⟨[b, c, h, w], d⟩ : Tensor α) (kh, kw)
        = some ((max (tileT d b c h w kh kw) 4).view [b, c, h / kh, w / kw]) := by
      show Option.map (fun x => ((max x.1 4).view [b, c, x.2.1, x.2.2]))
          (tile (⟨[b, c, h, w], d⟩ : Tensor α) (kh, kw)) = _
      rw [tile_eq d b c h w kh kw hh hw]
      rfl
    refine ⟨_, hmp, ?_⟩
    have hpool := pool_get d operators.max (-(10 ^ 9)) b c h w kh kw b' c' i j
      hkw hh hw hb hc hi hj
    show (((tileT d b c h w kh kw).reduce operators.max (-(10 ^ 9)) 4).view
        [b, c, h / kh, w / kw]).get [b', c', i, j] = -(10 ^ 9)
    rw [hpool]
    refine foldl_max_eq_init
      (fun k => d (encode [b, c, h, w] [b', c', i * kh + k / kw, j * kw + k % kw]))
      (List.range (kh * kw)) (-(10 ^ 9)) (fun k hk => ?_)
    have hk' : k < kh * kw := List.mem_range.mp hk
    have hq : k / kw < kh := by
      rw [Nat.div_lt_iff_lt_mul hkw]
      exact hk'
    have hr : k % kw < kw := Nat.mod_lt _ hkw
    exact hblock (k / kw) (k % kw) hq hr

/-- Witness for C10: the single-element input [-2e9] max-reduces to -1e9 and its argmax
mask is all zero. -/
theorem c10_witness :
    (max_reduce (⟨[1], fun _ => -2000000000⟩ : Tensor ℚ) 0).get [0] = -(10 ^ 9) ∧
    (argmax (⟨[1], fun _ => -2000000000⟩ : Tensor ℚ) 0).get [0] = 0 := by
  obtain ⟨h1, -, -, h4, -⟩ :=
    c10_identity_element (⟨[1], fun _ => -2000000000⟩ : Tensor ℚ) 0 [0] (by decide)
      (fun j hj => by
        have hj1 : j < 1 := hj
        have hj0 : j = 0 := by omega
        subst hj0
        decide)
  exact ⟨h1, h4 0 (by decide)⟩

/-- C6 (amended): dropout with ignore = true returns the input unchanged for every rate
and every noise draw; dropout at rate 0 with ignore = false keeps the input's shape and
leaves unchanged every position whose uniform noise draw is strictly positive.  A draw of
exactly 0 — a legal value for uniform noise on [0,1) — zeroes its position, because the
keep-mask is the strict comparison rate < noise; see the counterexample. -/
theorem c6_dropout_amended (x noise : Tensor α) (idx : List ℕ)
    (hn : noise.shape = x.shape) (hidx : validIdx idx x.shape = true) :
    (∀ r : α, dropout x r true noise = x) ∧
    (dropout x 0 false noise).shape = x.shape ∧
    (0 < noise.get idx → (dropout x 0 false noise).get idx = x.get idx) := by
  refine ⟨fun r => rfl, ?_, ?_⟩
  · show (Tensor.zipWith (fun u v => u * v) x
        (noise.map fun v => if (0 : α) < v then 1 else 0)).shape = x.shape
    exact zip_shape_same _ hn
  · intro hpos
    show (Tensor.zipWith (fun u v => u * v) x
        (noise.map fun v => if (0 : α) < v then 1 else 0)).get idx = x.get idx
    rw [zip_get_same _
      (show (noise.map fun v => if (0 : α) < v then 1 else 0).shape = x.shape from hn) hidx]
    show x.get idx * (if (0 : α) < noise.get idx then 1 else 0) = x.get idx
    rw [if_pos hpos, mul_one]

/-- Witness for C6: ignore = true is the identity at rate 1/2, and rate 0 with a strictly
positive noise draw keeps position 1 of the input [0, 1, 2]. -/
theorem c6_witness :
    dropout (⟨[3], fun n => (n : ℚ)⟩ : Tensor ℚ) (1 / 2) true ⟨[3], fun _ => 0⟩
        = (⟨[3], fun n => (n : ℚ)⟩ : Tensor ℚ) ∧
    (dropout (⟨[3], fun n => (n : ℚ)⟩ : Tensor ℚ) 0 false ⟨[3], fun _ => (1 / 2 : ℚ)⟩).get [1]
        = Tensor.get (⟨[3], fun n => (n : ℚ)⟩ : Tensor ℚ) [1] := by
  obtain ⟨h1, h2, h3⟩ := c6_dropout_amended (⟨[3], fun n => (n : ℚ)⟩ : Tensor ℚ)
      ⟨[3], fun _ => (1 / 2 : ℚ)⟩ [1] rfl (by decide)
  exact ⟨h1 (1 / 2), h3 (show (0 : ℚ) < 1 / 2 by norm_num)⟩

/-- Counterexample to C6 as stated: 0 is a legal draw of uniform noise on [0,1), and at
rate 0 with ignore = false a position whose draw is exactly 0 is zeroed rather than kept,
so dropout(x, 0, ignore=false) is not x for every realization of the noise. -/
theorem c6_counterexample :
    ((0 : ℚ) ≤ 0 ∧ (0 : ℚ) < 1) ∧
    (dropout (⟨[1], fun _ => 1⟩ : Tensor ℚ) 0 false ⟨[1], fun _ => 0⟩).get [0]
      ≠ Tensor.get (⟨[1], fun _ => 1⟩ : Tensor ℚ) [0] := by
  refine ⟨⟨le_refl 0, by norm_num⟩, ?_⟩
  show (Tensor.zipWith (fun u v => u * v) (⟨[1], fun _ => 1⟩ : Tensor ℚ)
      ((⟨[1], fun _ => 0⟩ : Tensor ℚ).map fun v => if (0 : ℚ) < v then 1 else 0)).get [0] ≠ _
  rw [zip_get_same _
    (show ((⟨[1], fun _ => 0⟩ : Tensor ℚ).map fun v => if (0 : ℚ) < v then 1 else 0).shape
      = (⟨[1], fun _ => 1⟩ : Tensor ℚ).shape from rfl) (by decide)]
  show (1 : ℚ) * (if (0 : ℚ) < 0 then 1 else 0) ≠ 1
  norm_num

/-- C7: avgpool2d on a batch x channel x height x width input with a kernel dividing
height and width returns shape batch x channel x height/kh x width/kw, each entry being
the arithmetic mean (block sum divided by kh*kw) of the corresponding kh x kw block; a
block holding a constant value everywhere pools to that constant. -/
theorem c7_avgpool (d : ℕ → α) (b c h w kh kw : ℕ) (hkh : 0 < kh) (hkw : 0 < kw)
    (hh : h % kh = 0) (hw : w % kw = 0) :
    ∃ t : Tensor α, avgpool2d (⟨[b, c, h, w], d⟩ : Tensor α) (kh, kw) = some t ∧
      t.shape = [b, c, h / kh, w / kw] ∧
      ∀ b' c' i j, b' < b → c' < c → i < h / kh → j < w / kw →
        (t.get [b', c', i, j]
          = ((List.range (kh * kw)).foldl
              (fun a k => a + Tensor.get (⟨[b, c, h, w], d⟩ : Tensor α)
                [b', c', i * kh + k / kw, j * kw + k % kw]) 0) / ((kh * kw : ℕ) : α)) ∧
        ∀ cst : α, (∀ p q, p < kh → q < kw →
            Tensor.get (⟨[b, c, h, w], d⟩ : Tensor α) [b', c', i * kh + p, j * kw + q]
              = cst) →
          t.get [b', c', i, j] = cst := by
  have hav : avgpool2d (⟨[b, c, h, w], d⟩ : Tensor α) (kh, kw)
      = some (((tileT d b c h w kh kw).mean 4).view [b, c, h / kh, w / kw]) := by
    show Option.map (fun x => ((x.1.mean 4).view [b, c, x.2.1, x.2.2]))
        (tile (⟨[b, c, h, w], d⟩ : Tensor α) (kh, kw)) = _
    rw [tile_eq d b c h w kh kw hh hw]
    rfl
  refine ⟨_, hav, rfl, ?_⟩
  intro b' c' i j hb hc hi hj
  have hsum' : (((tileT d b c h w kh kw).sum 4).view [b, c, h / kh, w / kw]).get [b', c', i, j]
      = (List.range (kh * kw)).foldl
          (fun a k => a + d (encode [b, c, h, w] [b', c', i * kh + k / kw, j * kw + k % kw]))
          0 :=
    pool_get d (fun u v => u + v) 0 b c h w kh kw b' c' i j hkw hh hw hb hc hi hj
  have hget : ((((tileT d b c h w kh kw).mean 4).view [b, c, h / kh, w / kw]).get
        [b', c', i, j])
      = ((List.range (kh * kw)).foldl
          (fun a k => a + d (encode [b, c, h, w] [b', c', i * kh + k / kw, j * kw + k % kw]))
          0) / ((kh * kw : ℕ) : α) := by
    show ((((tileT d b c h w kh kw).sum 4).map
        (fun v => v / (((tileT d b c h w kh kw).shape.getD 4 0 : ℕ) : α))).view
          [b, c, h / kh, w / kw]).get [b', c', i, j] = _
    rw [map_view_get, hsum']
    rfl
  refine ⟨hget, ?_⟩
  intro cst hcst
  rw [hget]
  have hconst : (List.range (kh * kw)).foldl
      (fun a k => a + d (encode [b, c, h, w] [b', c', i * kh + k / kw, j * kw + k % kw])) 0
      = ((kh * kw : ℕ) : α) * cst := by
    refine foldl_add_const
      (fun k => d (encode [b, c, h, w] [b', c', i * kh + k / kw, j * kw + k % kw])) cst
      (kh * kw) (fun k hk => ?_)
    have hq : k / kw < kh := by
      rw [Nat.div_lt_iff_lt_mul hkw]
      exact hk
    exact hcst (k / kw) (k % kw) hq (Nat.mod_lt _ hkw)
  rw [hconst]
  exact mul_div_cancel_left₀ cst
    (Nat.cast_ne_zero.mpr (by positivity))

/-- Witness for C7: average pooling the constant-3 tensor of shape 1x1x2x2 with kernel
(2,2) yields the constant 3. -/
theorem c7_witness :
    ∃ t : Tensor ℚ, avgpool2d (⟨[1, 1, 2, 2], fun _ => 3⟩ : Tensor ℚ) (2, 2) = some t ∧
      t.get [0, 0, 0, 0] = 3 := by
  obtain ⟨t, ht, hs, hg⟩ :=
    c7_avgpool (fun _ => (3 : ℚ)) 1 1 2 2 2 2 (by decide) (by decide) rfl rfl
  obtain ⟨hmean, hconst⟩ := hg 0 0 0 0 (by decide) (by decide) (by decide) (by decide)
  exact ⟨t, ht, hconst 3 (fun p q hp hq => rfl)⟩

lemma expsub_get (x : Tensor ℝ) (dm : ℕ) {idx : List ℕ}
    (hidx : validIdx idx x.shape = true) :
    ((x.sub (Max.forward x dm)).map Real.exp).get idx
      = Real.exp (x.get idx - (max_reduce x dm).get (idx.set dm 0)) := by
  show Real.exp ((Tensor.zipWith (fun u v => u - v) x (max_reduce x dm)).get idx) = _
  rw [zip_get_left dm _ rfl hidx]

lemma expsub_shape (x : Tensor ℝ) (dm : ℕ) {idx : List ℕ}
    (hidx : validIdx idx x.shape = true) :
    ((x.sub (Max.forward x dm)).map Real.exp).shape = x.shape := by
  show (Tensor.zipWith (fun u v => u - v) x (max_reduce x dm)).shape = x.shape
  exact zip_shape_left (d := dm) _ rfl (shape_pos hidx)

lemma sumexp_get (x : Tensor ℝ) (dm : ℕ) {idx : List ℕ}
    (hidx : validIdx idx x.shape = true) :
    (((x.sub (Max.forward x dm)).map Real.exp).sum dm).get (idx.set dm 0)
      = (List.range (x.shape.getD dm 0)).foldl
          (fun a j => a + Real.exp (x.get (idx.set dm j)
            - (max_reduce x dm).get (idx.set dm 0))) 0 := by
  have hsh := expsub_shape x dm hidx
  have hidxe : validIdx idx ((x.sub (Max.forward x dm)).map Real.exp).shape = true := by
    rw [hsh]
    exact hidx
  have h1 : (((x.sub (Max.forward x dm)).map Real.exp).sum dm).get (idx.set dm 0)
      = (List.range (((x.sub (Max.forward x dm)).map Real.exp).shape.getD dm 0)).foldl
          (fun acc j => acc
            + ((x.sub (Max.forward x dm)).map Real.exp).get (idx.set dm j)) 0 :=
    reduce_get _ _ 0 dm hidxe
  rw [h1, hsh]
  refine List.foldl_ext _ _ 0 (fun a j hj => ?_)
  rw [expsub_get x dm (validIdx_set dm j hidx (List.mem_range.mp hj)), List.set_set]

lemma sumexp_pos (x : Tensor ℝ) (dm : ℕ) {idx : List ℕ}
    (hdm : dm < idx.length) (hidx : validIdx idx x.shape = true) :
    0 < (((x.sub (Max.forward x dm)).map Real.exp).sum dm).get (idx.set dm 0) := by
  rw [sumexp_get x dm hidx]
  have hs : 0 < x.shape.getD dm 0 :=
    lt_of_le_of_lt (Nat.zero_le _) (validIdx_getD dm hidx hdm)
  refine foldl_add_pos
    (fun j => Real.exp (x.get (idx.set dm j) - (max_reduce x dm).get (idx.set dm 0)))
    (List.range (x.shape.getD dm 0)) 0 (fun j _ => Real.exp_pos _) (le_refl 0) (Or.inl ?_)
  rw [Ne, List.range_eq_nil]
  omega

lemma logsoftmax_get (x : Tensor ℝ) (dm : ℕ) {idx : List ℕ}
    (hidx : validIdx idx x.shape = true) :
    (logsoftmax x dm).get idx
      = x.get idx
        - (Real.log ((((x.sub (Max.forward x dm)).map Real.exp).sum dm).get (idx.set dm 0))
            + (max_reduce x dm).get (idx.set dm 0)) := by
  have hsh := expsub_shape x dm hidx
  have hAshape : ((((x.sub (Max.forward x dm)).map Real.exp).sum dm).map Real.log).shape
      = x.shape.set dm 1 := by
    show (((x.sub (Max.forward x dm)).map Real.exp).shape).set dm 1 = x.shape.set dm 1
    rw [hsh]
  have hb : (Max.forward x dm).shape
      = ((((x.sub (Max.forward x dm)).map Real.exp).sum dm).map Real.log).shape := by
    rw [hAshape]
    rfl
  have hlse_shape : (((((x.sub (Max.forward x dm)).map Real.exp).sum dm).map Real.log).add
      (Max.forward x dm)).shape = x.shape.set dm 1 := by
    show (Tensor.zipWith (fun u v => u + v)
        ((((x.sub (Max.forward x dm)).map Real.exp).sum dm).map Real.log)
        (Max.forward x dm)).shape = x.shape.set dm 1
    rw [zip_shape_same _ hb, hAshape]
  have hlse_get : (((((x.sub (Max.forward x dm)).map Real.exp).sum dm).map Real.log).add
      (Max.forward x dm)).get (idx.set dm 0)
      = Real.log ((((x.sub (Max.forward x dm)).map Real.exp).sum dm).get (idx.set dm 0))
        + (max_reduce x dm).get (idx.set dm 0) := by
    have hvalA : validIdx (idx.set dm 0)
        ((((x.sub (Max.forward x dm)).map Real.exp).sum dm).map Real.log).shape = true := by
      rw [hAshape]
      exact validIdx_set_zero_one dm hidx
    show (Tensor.zipWith (fun u v => u + v)
        ((((x.sub (Max.forward x dm)).map Real.exp).sum dm).map Real.log)
        (Max.forward x dm)).get (idx.set dm 0) = _
    rw [zip_get_same _ hb hvalA]
    rfl
  have houter : (logsoftmax x dm).get idx
      = x.get idx - (((((x.sub (Max.forward x dm)).map Real.exp).sum dm).map Real.log).add
          (Max.forward x dm)).get (idx.set dm 0) := by
    show (Tensor.zipWith (fun u v => u - v) x
        (((((x.sub (Max.forward x dm)).map Real.exp).sum dm).map Real.log).add
          (Max.forward x dm))).get idx = _
    exact zip_get_left dm _ hlse_shape hidx
  rw [houter, hlse_get]

lemma softmax_get (x : Tensor ℝ) (dm : ℕ) {idx : List ℕ}
    (hidx : validIdx idx x.shape = true) :
    (softmax x dm).get idx
      = Real.exp (x.get idx - (max_reduce x dm).get (idx.set dm 0))
        / (((x.sub (Max.forward x dm)).map Real.exp).sum dm).get (idx.set dm 0) := by
  have hsh := expsub_shape x dm hidx
  have hidxe : validIdx idx ((x.sub (Max.forward x dm)).map Real.exp).shape = true := by
    rw [hsh]
    exact hidx
  show (Tensor.zipWith (fun u v => u / v)
      ((x.sub (Max.forward x dm)).map Real.exp)
      (((x.sub (Max.forward x dm)).map Real.exp).sum dm)).get idx = _
  rw [zip_get_left dm _ rfl hidxe, expsub_get x dm hidx]

/-- C5: exponentiating logsoftmax recovers softmax exactly over real arithmetic:
exp(x_i - (log(sum_j exp(x_j - max)) + max)) = exp(x_i - max) / sum_j exp(x_j - max) at
every valid position. -/
theorem c5_exp_logsoftmax (x : Tensor ℝ) (dm : ℕ) (idx : List ℕ)
    (hdm : dm < idx.length) (hidx : validIdx idx x.shape = true) :
    Real.exp ((logsoftmax x dm).get idx) = (softmax x dm).get idx := by
  have hSpos := sumexp_pos x dm hdm hidx
  rw [logsoftmax_get x dm hidx, softmax_get x dm hidx]
  rw [Real.exp_sub, Real.exp_add, Real.exp_log hSpos, Real.exp_sub]
  rw [div_div, mul_comm]

/-- Witness for C5 at the one-element input [0] along axis 0. -/
theorem c5_witness :
    Real.exp ((logsoftmax (⟨[1], fun _ => 0⟩ : Tensor ℝ) 0).get [0])
      = (softmax (⟨[1], fun _ => 0⟩ : Tensor ℝ) 0).get [0] :=
  c5_exp_logsoftmax (⟨[1], fun _ => 0⟩ : Tensor ℝ) 0 [0] (by decide) (by decide)

/-- C9: logsumexp and softmax_loss fail unconditionally with a not-implemented failure on
every call, before producing any result: both are modelled as returning none for every
input. -/
theorem c9_not_implemented :
    (∀ (input : Tensor α) (dm : ℕ), logsumexp input dm = none) ∧
    (∀ (logits target : Tensor α), softmax_loss logits target = none) :=
  ⟨fun _ _ => rfl, fun _ _ => rfl⟩

/-- C8 (code bug): layer_norm passes dim = 4 to mean and var although the input was just
unpacked as 4-dimensional (axes 0..3), so the reduction runs over an out-of-range axis
rather than the last axis; in the model the empty reduction makes mean and variance 0, so
layer_norm returns input / (0 + eps): on the constant-2 tensor of shape 1x1x1x1 with
eps = 1 it returns 2, while the claim's per-position normalization over the last axis
(layer_norm_spec, axis 3) returns (2 - 2) / (0 + 1) = 0. -/
theorem c8_layer_norm_dim_bug :
    ∃ t : Tensor ℚ, layer_norm (⟨[1, 1, 1, 1], fun _ => 2⟩ : Tensor ℚ) 1 = some t ∧
      t.get [0, 0, 0, 0] = 2 ∧
      (layer_norm_spec (⟨[1, 1, 1, 1], fun _ => 2⟩ : Tensor ℚ) 1).get [0, 0, 0, 0] = 0 := by
  refine ⟨_, rfl, ?_, ?_⟩
  · norm_num [Tensor.get, Tensor.sub, Tensor.div, Tensor.mean, Tensor.var, Tensor.sum,
      Tensor.map, Tensor.view, Tensor.reduce, Tensor.zipWith, encode, decode, broadcastIdx,
      List.set, List.getD, List.zipWith, List.foldl, List.range_succ, List.range_zero,
      List.prod_cons, List.prod_nil]
  · norm_num [layer_norm_spec, Tensor.get, Tensor.sub, Tensor.div, Tensor.mean, Tensor.var,
      Tensor.sum, Tensor.map, Tensor.view, Tensor.reduce, Tensor.zipWith, encode, decode,
      broadcastIdx, List.set, List.getD, List.zipWith, List.foldl, List.range_succ,
      List.range_zero, List.prod_cons, List.prod_nil]

end MiniTorch
